import Mathlib

/-!
Verification of the PiHole-domain-aggregator core pipeline.

The Rust sources are shallowly embedded: a Rust `String` / `&str` is modelled
as the list of its characters (`List Char`), so `str::split`, `chars()`,
slicing at a byte index of an ASCII position, etc. become list operations.
External collaborators (the `punycode` crate, Unicode classification tables of
`char::is_alphanumeric` / `char::is_whitespace`, `String::to_lowercase`, and
the network fetch) are passed in as function parameters, so every theorem
quantifies over them.

Embedded units (from `src/aggregate/lists.rs`, `src/lib/aggregate/validation.rs`,
`src/lib/aggregate/data.rs`, `src/thread.rs`, `src/lib/thread.rs`):
`validate` / `encode` / `truncate`, `parse`, `whitelist`, `addlist`, `mutate`,
and the thread-pool construction and shutdown protocol.
-/

namespace PiHole

/-- A Rust `String` (or `&str`), as its sequence of characters. -/
abbrev Str := List Char

/-! ### ASCII character classes

Rust's `char::is_ascii_digit` / `is_ascii_alphabetic` / `is_ascii_alphanumeric`
are defined by the codepoint ranges 0-9, A-Z, a-z; we transcribe those ranges. -/

/-- Rust `char::is_ascii_digit`: U+0030 ..= U+0039. -/
def isAsciiDigitC (c : Char) : Bool := decide (48 ≤ c.toNat) && decide (c.toNat ≤ 57)

/-- Rust `char::is_ascii_uppercase`: U+0041 ..= U+005A. -/
def isAsciiUpperC (c : Char) : Bool := decide (65 ≤ c.toNat) && decide (c.toNat ≤ 90)

/-- Rust `char::is_ascii_lowercase`: U+0061 ..= U+007A. -/
def isAsciiLowerC (c : Char) : Bool := decide (97 ≤ c.toNat) && decide (c.toNat ≤ 122)

/-- Rust `char::is_ascii_alphabetic`. -/
def isAsciiAlphaC (c : Char) : Bool := isAsciiUpperC c || isAsciiLowerC c

/-- Rust `char::is_ascii_alphanumeric`. -/
def isAsciiAlnumC (c : Char) : Bool := isAsciiAlphaC c || isAsciiDigitC c

/-! ### Splitting on a separator character

Rust `str::split(sep)` keeps empty pieces: `"".split('.')` is `[""]`,
`"a.".split('.')` is `["a", ""]`.  `joinSep` is `Vec::join` /
`str::split` inverted. -/

/-- Rust `str::split(sep)` on a single-char pattern. -/
def splitOnSep (sep : Char) : Str → List Str
  | [] => [[]]
  | c :: rest =>
    if c = sep then [] :: splitOnSep sep rest
    else
      match splitOnSep sep rest with
      | [] => [[c]]
      | lab :: labs => (c :: lab) :: labs

/-- Rust `[String]::join(sep)` for a single-char separator. -/
def joinSep (sep : Char) : List Str → Str
  | [] => []
  | [l] => l
  | l :: ls => l ++ sep :: joinSep sep ls

theorem splitOnSep_ne_nil (sep : Char) (l : Str) : splitOnSep sep l ≠ [] := by
  cases l with
  | nil => simp [splitOnSep]
  | cons c rest =>
    simp only [splitOnSep]
    split
    · simp
    · split <;> simp

theorem joinSep_cons (sep : Char) (a : Str) (ls : List Str) (h : ls ≠ []) :
    joinSep sep (a :: ls) = a ++ sep :: joinSep sep ls := by
  cases ls with
  | nil => exact absurd rfl h
  | cons b t => rfl

theorem joinSep_splitOnSep (sep : Char) (l : Str) :
    joinSep sep (splitOnSep sep l) = l := by
  induction l with
  | nil => rfl
  | cons c rest ih =>
    simp only [splitOnSep]
    by_cases hc : c = sep
    · rw [if_pos hc, joinSep_cons sep [] _ (splitOnSep_ne_nil sep rest)]
      simp [ih, hc]
    · rw [if_neg hc]
      rcases hsp : splitOnSep sep rest with _ | ⟨lab, labs⟩
      · exact absurd hsp (splitOnSep_ne_nil sep rest)
      · cases labs with
        | nil =>
          have h2 : joinSep sep [lab] = rest := by rw [← hsp, ih]
          simp only [joinSep] at h2 ⊢
          rw [h2]
        | cons lab2 labs2 =>
          have h2 : lab ++ sep :: joinSep sep (lab2 :: labs2) = rest := by
            rw [← joinSep_cons sep lab _ (by simp), ← hsp, ih]
          show (c :: lab) ++ sep :: joinSep sep (lab2 :: labs2) = c :: rest
          rw [List.cons_append, h2]

theorem mem_of_mem_splitOnSep {sep : Char} {l lab : Str} {c : Char}
    (hlab : lab ∈ splitOnSep sep l) (hc : c ∈ lab) : c ∈ l := by
  induction l generalizing lab with
  | nil =>
    simp only [splitOnSep, List.mem_singleton] at hlab
    subst hlab
    exact absurd hc (List.not_mem_nil c)
  | cons a rest ih =>
    simp only [splitOnSep] at hlab
    split at hlab
    · rcases List.mem_cons.mp hlab with h | h
      · subst h; exact absurd hc (List.not_mem_nil c)
      · exact List.mem_cons_of_mem a (ih h hc)
    · rcases hsp : splitOnSep sep rest with _ | ⟨lab0, labs0⟩
      · exact absurd hsp (splitOnSep_ne_nil sep rest)
      · rw [hsp] at hlab
        rcases List.mem_cons.mp hlab with h | h
        · subst h
          rcases List.mem_cons.mp hc with h | h
          · exact h ▸ List.mem_cons_self a rest
          · exact List.mem_cons_of_mem a (ih (hsp ▸ List.mem_cons_self lab0 labs0) h)
        · exact List.mem_cons_of_mem a (ih (hsp ▸ List.mem_cons_of_mem lab0 h) hc)

theorem splitOnSep_append_sep (sep : Char) (l : Str) :
    splitOnSep sep (l ++ [sep]) = splitOnSep sep l ++ [[]] := by
  induction l with
  | nil => simp [splitOnSep]
  | cons c rest ih =>
    rcases hsp : splitOnSep sep rest with _ | ⟨lab, labs⟩
    · exact absurd hsp (splitOnSep_ne_nil sep rest)
    · by_cases hc : c = sep
      · simp only [List.cons_append, splitOnSep, if_pos hc, List.append_eq, ih,
          List.cons_append]
      · simp only [List.cons_append, splitOnSep, if_neg hc, List.append_eq, ih, hsp,
          List.cons_append]

/-! ### Validator / Normalizer (`src/lib/aggregate/validation.rs`)

`truncate` transcribes the Rust function literally.  The Rust code computes the
first character that is neither ASCII-alphanumeric nor `-` nor `.` (a string
`invalid` of at most one char), looks up its first occurrence with
`str::find`, wraps the byte index in `NonZeroUsize` (so both "not found maps
to index 0 of the empty pattern" and "invalid char at position 0" fall through
to the unchanged string), slices up to that index, and finally strips one
trailing dot.  All characters before the first invalid character are ASCII
(alphanumeric, `-` or `.`), so the byte index used by the slice equals the
character index used here. -/

/-- Condition for a character to survive `truncate`: ASCII-alphanumeric or in
`VALID_CHARS = ['-', '.']`. -/
def truncValid (c : Char) : Bool := isAsciiAlnumC c || c = '-' || c = '.'

/-- Rust `str::strip_suffix('.')` with `unwrap_or(raw)`: drop one trailing dot
if present. -/
def stripDotSuffix (l : Str) : Str :=
  match l.getLast? with
  | some '.' => l.dropLast
  | _ => l

/-- The `truncate` function of `src/lib/aggregate/validation.rs` (also
`domain_validation::truncate` in `src/lib/addlist.rs`). -/
def truncate (raw : Str) : Str :=
  let invalid := (raw.filter (fun c => !truncValid c)).take 1
  let cut :=
    match invalid with
    | [] => raw
    | c :: _ =>
      let i := raw.findIdx (fun x => x = c)
      if i = 0 then raw else raw.take i
  stripDotSuffix cut

/-- Modelled from the spec: "find the first character that is not
ASCII-alphanumeric and not in {'-', '.'}; cut the string there; then strip one
trailing '.' if present" — cutting even when that first character is at
position 0.  Stated only for comparison with `truncate`. -/
def truncateSpec (raw : Str) : Str :=
  stripDotSuffix (raw.takeWhile truncValid)

/-- Rust `str::is_ascii`: every byte (equivalently, every char) is below 0x80. -/
def isAsciiStr (l : Str) : Bool := l.all (fun c => decide (c.toNat ≤ 127))

/-- The `help_encode` function: ASCII labels pass through; otherwise punycode
(an external crate, passed in as `puny`) encodes the label and the result is
prefixed with `"xn--"`; if encoding fails the label passes through unchanged. -/
def helpEncode (puny : Str → Option Str) (decoded : Str) : Str :=
  if isAsciiStr decoded then decoded
  else
    match puny decoded with
    | some e => 'x' :: 'n' :: '-' :: '-' :: e
    | none => decoded

/-- The `encode` function: split on `'.'`, encode each label, re-join. -/
def encode (puny : Str → Option Str) (decoded : Str) : Str :=
  joinSep '.' ((splitOnSep '.' decoded).map (helpEncode puny))

/-- Rust `str::len` of a label: its UTF-8 byte length. -/
def labelByteLen (lab : Str) : Nat := (lab.map Char.utf8Size).sum

/-- The seven conditions checked by `validate` on the truncated, encoded
domain.  `uAlnum` stands for Rust's Unicode `char::is_alphanumeric`, used by
the interior-character check (the other checks use the ASCII classifiers). -/
def checks (uAlnum : Char → Bool) (domain : Str) : Bool :=
  let labs := splitOnSep '.' domain
  let isFirstAlphabetic :=
    labs.all (fun lab => (lab.head?.map isAsciiAlphaC).getD false)
  let isLastAlphanumeric :=
    labs.all (fun lab => (lab.getLast?.map isAsciiAlnumC).getD false)
  let isInteriorValid :=
    labs.all (fun lab => lab.all (fun c => uAlnum c || c = '-'))
  let upperLimit := labs.all (fun lab => decide (labelByteLen lab ≤ 63))
  let lowerLimit := labs.all (fun lab => !lab.isEmpty)
  let totalUpperLimit := decide ((domain.filter (fun c => c ≠ '.')).length ≤ 255)
  let containsDot := domain.contains '.'
  containsDot && isFirstAlphabetic && isLastAlphanumeric && isInteriorValid &&
    upperLimit && lowerLimit && totalUpperLimit

/-- The `validate` function of `src/lib/aggregate/validation.rs`:
encode, truncate, then check; returns the normalized domain on success. -/
def validate (puny : Str → Option Str) (uAlnum : Char → Bool) (domain : Str) :
    Option Str :=
  let d := truncate (encode puny domain)
  if checks uAlnum d then some d else none

/-! ### Facts about `truncate` -/

theorem findIdx_append_cons {α} (p : α → Bool) (pre : List α) (c : α) (post : List α)
    (hpre : ∀ x ∈ pre, p x = false) (hc : p c = true) :
    (pre ++ c :: post).findIdx p = pre.length := by
  induction pre with
  | nil => simp [List.findIdx_cons, hc]
  | cons a t ih =>
    have ha : p a = false := hpre a (List.mem_cons_self a t)
    simp only [List.cons_append, List.findIdx_cons, ha, cond_false, List.length_cons]
    rw [ih (fun x hx => hpre x (List.mem_cons_of_mem a hx))]

theorem mem_stripDotSuffix {l : Str} {c : Char} (h : c ∈ stripDotSuffix l) : c ∈ l := by
  unfold stripDotSuffix at h
  split at h
  · exact (List.dropLast_sublist l).mem h
  · exact h

theorem stripDotSuffix_cons_ne_dot (c : Char) (rest : Str) (hc : c ≠ '.') :
    ∃ t, stripDotSuffix (c :: rest) = c :: t := by
  unfold stripDotSuffix
  split
  · next heq =>
    cases rest with
    | nil =>
      simp only [List.getLast?_singleton, Option.some.injEq] at heq
      exact absurd heq hc
    | cons b t => exact ⟨(b :: t).dropLast, by simp⟩
  · exact ⟨rest, rfl⟩

/-- When the input has no invalid character, `truncate` only strips a trailing
dot. -/
theorem truncate_of_all_valid (raw : Str) (h : ∀ c ∈ raw, truncValid c = true) :
    truncate raw = stripDotSuffix raw := by
  unfold truncate
  have hfil : raw.filter (fun c => !truncValid c) = [] :=
    List.filter_eq_nil_iff.mpr (fun a ha => by simp [h a ha])
  simp [hfil]

/-- When the first character is already invalid, `truncate` leaves the string
uncut (apart from the trailing-dot strip): the Rust code wraps the found byte
index in `NonZeroUsize`, and index 0 falls through to the unchanged string. -/
theorem truncate_of_head_invalid (c : Char) (rest : Str) (hc : truncValid c = false) :
    truncate (c :: rest) = stripDotSuffix (c :: rest) := by
  unfold truncate
  have hfil : (c :: rest).filter (fun x => !truncValid x) =
      c :: rest.filter (fun x => !truncValid x) := by simp [hc]
  have hidx : (c :: rest).findIdx (fun x => x = c) = 0 := by
    simp [List.findIdx_cons]
  simp only [hfil, List.take_succ_cons, List.take_zero, hidx, if_pos]

/-- When the first invalid character sits at a nonzero position, `truncate`
cuts right before it and then strips a trailing dot. -/
theorem truncate_of_first_invalid (pre : Str) (c : Char) (post : Str)
    (hne : pre ≠ []) (hpre : ∀ x ∈ pre, truncValid x = true)
    (hc : truncValid c = false) :
    truncate (pre ++ c :: post) = stripDotSuffix pre := by
  unfold truncate
  have hfil : (pre ++ c :: post).filter (fun x => !truncValid x) =
      c :: post.filter (fun x => !truncValid x) := by
    rw [List.filter_append]
    rw [List.filter_eq_nil_iff.mpr (fun a ha => by simp [hpre a ha])]
    simp [hc]
  have hxc : ∀ x ∈ pre, (fun x => decide (x = c)) x = false := by
    intro x hx
    simp only [decide_eq_false_iff_not]
    intro hxeq
    rw [hxeq] at hx
    rw [hpre c hx] at hc
    exact Bool.noConfusion hc
  have hidx : (pre ++ c :: post).findIdx (fun x => x = c) = pre.length :=
    findIdx_append_cons _ pre c post hxc (by simp)
  have hlen : pre.length ≠ 0 := fun h0 => hne (List.length_eq_zero.mp h0)
  simp only [hfil, List.take_succ_cons, hidx, if_neg hlen, List.take_left]

/-- Every character of `truncate raw` is valid, unless the first character of
the result is itself invalid (the position-0 fall-through). -/
theorem truncate_valid_or_head_invalid (raw : Str) :
    (∀ c ∈ truncate raw, truncValid c = true) ∨
      (∃ c t, truncate raw = c :: t ∧ truncValid c = false) := by
  rcases hfil : raw.filter (fun c => !truncValid c) with _ | ⟨c, rest⟩
  · left
    intro c hc
    have hall : ∀ a ∈ raw, truncValid a = true := by
      intro a ha
      have := List.filter_eq_nil_iff.mp hfil a ha
      simpa using this
    rw [truncate_of_all_valid raw hall] at hc
    exact hall c (mem_stripDotSuffix hc)
  · obtain ⟨l₁, l₂, hdecomp, hl₁, hpc, _⟩ := List.filter_eq_cons_iff.mp hfil
    have hcinv : truncValid c = false := by simpa using hpc
    have hl₁valid : ∀ x ∈ l₁, truncValid x = true := by
      intro x hx
      have := hl₁ x hx
      simpa using this
    cases l₁ with
    | nil =>
      right
      rw [hdecomp]
      simp only [List.nil_append]
      rw [truncate_of_head_invalid c l₂ hcinv]
      have hcne : c ≠ '.' := by
        intro h
        rw [h] at hcinv
        simp [truncValid] at hcinv
      obtain ⟨t, ht⟩ := stripDotSuffix_cons_ne_dot c l₂ hcne
      exact ⟨c, t, ht, hcinv⟩
    | cons a t =>
      left
      intro x hx
      rw [hdecomp, truncate_of_first_invalid (a :: t) c l₂ (by simp) hl₁valid hcinv] at hx
      exact hl₁valid x (mem_stripDotSuffix hx)

/-! ### Claim C7: behaviour of `truncate` -/

/-- C7, counterexample: the spec says `truncate` cuts at the position of the
first invalid character wherever it is; the code leaves the string uncut when
that character is at position 0 (`NonZeroUsize::new(0)` is `None`).  On input
`"?a"` the code returns `"?a"`, while cutting at position 0 would return `""`. -/
theorem truncate_spec_counterexample :
    truncate [ '?', 'a' ] ≠ truncateSpec [ '?', 'a' ] := by decide

/-- C7 (amended): `truncate` strips one trailing dot after cutting at the
position of the first character that is not ASCII-alphanumeric and not `-` or
`.` — except that when that character is the very first one, the string is
left uncut; a string with no such character is unchanged apart from the
trailing-dot strip. -/
theorem truncate_characterization (raw : Str) :
    ((∀ c ∈ raw, truncValid c = true) → truncate raw = stripDotSuffix raw) ∧
    (∀ c rest, raw = c :: rest → truncValid c = false →
      truncate raw = stripDotSuffix raw) ∧
    (∀ pre c post, raw = pre ++ c :: post → pre ≠ [] →
      (∀ x ∈ pre, truncValid x = true) → truncValid c = false →
      truncate raw = stripDotSuffix pre) := by
  refine ⟨truncate_of_all_valid raw, ?_, ?_⟩
  · intro c rest hraw hc
    subst hraw
    exact truncate_of_head_invalid c rest hc
  · intro pre c post hraw hne hpre hc
    subst hraw
    exact truncate_of_first_invalid pre c post hne hpre hc

/-- C7 witness: the characterization applied to the concrete input `"ab?c"`,
whose first invalid character `?` sits at position 2. -/
theorem truncate_characterization_witness :
    truncate [ 'a', 'b', '?', 'c' ] = stripDotSuffix [ 'a', 'b' ] :=
  (truncate_characterization [ 'a', 'b', '?', 'c' ]).2.2 [ 'a', 'b' ] '?' [ 'c' ]
    rfl (by decide) (by decide) (by decide)

/-! ### Claim C6: idempotence of `validate` -/

theorem truncValid_ascii {c : Char} (h : truncValid c = true) : c.toNat ≤ 127 := by
  simp only [truncValid, isAsciiAlnumC, isAsciiAlphaC, isAsciiUpperC, isAsciiLowerC,
    isAsciiDigitC, Bool.or_eq_true, Bool.and_eq_true, decide_eq_true_eq] at h
  rcases h with ((⟨h1, h2⟩ | ⟨h1, h2⟩) | ⟨h1, h2⟩) | rfl | rfl
  · omega
  · omega
  · omega
  · decide
  · decide

theorem map_id_of_mem {α} (f : α → α) (l : List α) (h : ∀ x ∈ l, f x = x) :
    l.map f = l := by
  induction l with
  | nil => rfl
  | cons a t ih =>
    rw [List.map_cons, h a (List.mem_cons_self a t),
      ih (fun x hx => h x (List.mem_cons_of_mem a hx))]

/-- A domain all of whose characters are ASCII is fixed by `encode`. -/
theorem encode_of_ascii (puny : Str → Option Str) (l : Str)
    (h : ∀ x ∈ l, x.toNat ≤ 127) : encode puny l = l := by
  unfold encode
  rw [map_id_of_mem, joinSep_splitOnSep]
  intro lab hlab
  unfold helpEncode
  rw [if_pos]
  unfold isAsciiStr
  exact List.all_eq_true.mpr
    (fun x hx => decide_eq_true (h x (mem_of_mem_splitOnSep hlab hx)))

theorem validate_some_inv {puny : Str → Option Str} {uA : Char → Bool} {d c : Str}
    (h : validate puny uA d = some c) :
    checks uA c = true ∧ c = truncate (encode puny d) := by
  have h2 : (if checks uA (truncate (encode puny d)) = true then
      some (truncate (encode puny d)) else none) = some c := h
  split at h2
  · next hchk => injection h2 with h3; exact ⟨h3 ▸ hchk, h3.symm⟩
  · cases h2

theorem first_label_head {a : Char} (t : Str) (ha : a ≠ '.') :
    ∃ lab labs, splitOnSep '.' (a :: t) = (a :: lab) :: labs := by
  rcases hsp : splitOnSep '.' t with _ | ⟨lab, labs⟩
  · exact absurd hsp (splitOnSep_ne_nil _ t)
  · exact ⟨lab, labs, by simp only [splitOnSep, if_neg ha, hsp]⟩

/-- If the checks accept `a :: t` then its first character is a valid
(`truncate`-surviving) character: either a dot, or the head of the first
label, which must be ASCII-alphabetic. -/
theorem head_valid_of_checks {uA : Char → Bool} {a : Char} {t : Str}
    (h : checks uA (a :: t) = true) : truncValid a = true := by
  by_cases ha : a = '.'
  · rw [ha]; decide
  · obtain ⟨lab, labs, hsp⟩ := first_label_head t ha
    simp only [checks, Bool.and_eq_true, List.all_eq_true] at h
    obtain ⟨⟨⟨⟨⟨⟨hcd, hfa⟩, hla⟩, hiv⟩, hul⟩, hll⟩, htu⟩ := h
    have := hfa (a :: lab) (hsp ▸ List.mem_cons_self _ _)
    simp only [List.head?_cons, Option.map_some', Option.getD_some] at this
    simp [truncValid, isAsciiAlnumC, this]

/-- If the checks accept `d` then `d` does not end in a dot — else the last
label would be empty and the `lower_limit` check would fail. -/
theorem last_ne_dot_of_checks {uA : Char → Bool} {d : Str}
    (h : checks uA d = true) : d.getLast? ≠ some '.' := by
  intro hlast
  obtain ⟨l', rfl⟩ := List.getLast?_eq_some_iff.mp hlast
  simp only [checks, Bool.and_eq_true, List.all_eq_true] at h
  obtain ⟨⟨⟨⟨⟨⟨hcd, hfa⟩, hla⟩, hiv⟩, hul⟩, hll⟩, htu⟩ := h
  have := hll [] (by rw [splitOnSep_append_sep]; simp)
  simp at this

/-- Every character of a successful `validate` output survives `truncate`:
the output is a `truncate` result, and were its head invalid, the
first-char-alphabetic check would have rejected it. -/
theorem validate_output_valid {puny : Str → Option Str} {uA : Char → Bool}
    {d c : Str} (h : validate puny uA d = some c) :
    ∀ x ∈ c, truncValid x = true := by
  obtain ⟨hchk, hc⟩ := validate_some_inv h
  rcases truncate_valid_or_head_invalid (encode puny d) with hall | ⟨a, t, heq, hainv⟩
  · rw [hc]; exact hall
  · rw [← hc] at heq
    rw [heq] at hchk
    exact absurd (head_valid_of_checks hchk) (by rw [hainv]; exact Bool.noConfusion)

/-- C6: `validate` is idempotent on its own output — a successful result
re-validates to itself.  The output contains only ASCII-alphanumeric, `-` and
`.` characters, so `encode` and `truncate` fix it and the checks are re-run
unchanged. -/
theorem validate_idem (puny : Str → Option Str) (uA : Char → Bool) (d c : Str)
    (h : validate puny uA d = some c) : validate puny uA c = some c := by
  obtain ⟨hchk, _⟩ := validate_some_inv h
  have hvalid := validate_output_valid h
  have henc : encode puny c = c :=
    encode_of_ascii puny c (fun x hx => truncValid_ascii (hvalid x hx))
  have htr : truncate c = c := by
    rw [truncate_of_all_valid c hvalid]
    unfold stripDotSuffix
    split
    · next heq => exact absurd heq (last_ne_dot_of_checks hchk)
    · rfl
  show (if checks uA (truncate (encode puny c)) = true then
      some (truncate (encode puny c)) else none) = some c
  rw [henc, htr, if_pos hchk]

/-- C6 witness: `validate` applied twice to the already-canonical `"a.b"`. -/
theorem validate_idem_witness :
    validate (fun _ => none) isAsciiAlnumC [ 'a', '.', 'b' ] = some [ 'a', '.', 'b' ] :=
  validate_idem (fun _ => none) isAsciiAlnumC [ 'a', '.', 'b' ] [ 'a', '.', 'b' ]
    (by decide)

/-! ### The aggregator `mutate` (`src/aggregate/lists.rs`)

Rust sorts `String`s by their byte sequences; since UTF-8 byte order agrees
with codepoint order, this is the codepoint-lexicographic order `lexLe`.
`itertools::unique` keeps the first occurrence of each element
(`dedupKeepFirst`); `itertools::sorted` is a stable sort, and because `lexLe`
is total, transitive and antisymmetric every sorted permutation of a list is
unique, so the kernel-reducible `List.insertionSort` computes exactly the same
function. -/

/-- Byte-lexicographic order of Rust `String`s (`Ord for String`). -/
def lexLe : Str → Str → Bool
  | [], _ => true
  | _ :: _, [] => false
  | a :: as, b :: bs =>
    if a.toNat < b.toNat then true
    else if b.toNat < a.toNat then false
    else lexLe as bs

/-- Relation form of `lexLe`. -/
def lexLeP (a b : Str) : Prop := lexLe a b = true

instance : DecidableRel lexLeP := fun a b => by
  unfold lexLeP; infer_instance

theorem lexLe_total (a b : Str) : lexLe a b = true ∨ lexLe b a = true := by
  induction a generalizing b with
  | nil => left; rfl
  | cons x xs ih =>
    cases b with
    | nil => right; rfl
    | cons y ys =>
      simp only [lexLe]
      rcases Nat.lt_trichotomy x.toNat y.toNat with h | h | h
      · left; simp [h]
      · have h2 : ¬x.toNat < y.toNat := by omega
        have h3 : ¬y.toNat < x.toNat := by omega
        rcases ih ys with h4 | h4
        · left; simp [h2, h3, h4]
        · right; simp [h2, h3, h4]
      · right; simp [h]

theorem lexLe_antisymm (a b : Str) (hab : lexLe a b = true)
    (hba : lexLe b a = true) : a = b := by
  induction a generalizing b with
  | nil =>
    cases b with
    | nil => rfl
    | cons y ys => exact Bool.noConfusion hba
  | cons x xs ih =>
    cases b with
    | nil => exact Bool.noConfusion hab
    | cons y ys =>
      simp only [lexLe] at hab hba
      rcases Nat.lt_trichotomy x.toNat y.toNat with h | h | h
      · have h3 : ¬y.toNat < x.toNat := by omega
        simp [h, h3] at hba
      · have h2 : ¬x.toNat < y.toNat := by omega
        have h3 : ¬y.toNat < x.toNat := by omega
        simp only [if_neg h2, if_neg h3] at hab hba
        have hxy : x = y := Char.ext (UInt32.toNat.inj h)
        rw [hxy, ih ys hab hba]
      · have h2 : ¬x.toNat < y.toNat := by omega
        simp [h, h2] at hab

theorem lexLe_trans (a b c : Str) (hab : lexLe a b = true)
    (hbc : lexLe b c = true) : lexLe a c = true := by
  induction a generalizing b c with
  | nil => rfl
  | cons x xs ih =>
    cases b with
    | nil => exact Bool.noConfusion hab
    | cons y ys =>
      cases c with
      | nil => exact Bool.noConfusion hbc
      | cons z zs =>
        simp only [lexLe] at hab hbc ⊢
        have hxy : x.toNat ≤ y.toNat := by
          by_contra hgt
          have h2 : ¬x.toNat < y.toNat := by omega
          have h3 : y.toNat < x.toNat := by omega
          simp [h2, h3] at hab
        have hyz : y.toNat ≤ z.toNat := by
          by_contra hgt
          have h2 : ¬y.toNat < z.toNat := by omega
          have h3 : z.toNat < y.toNat := by omega
          simp [h2, h3] at hbc
        by_cases hxz : x.toNat < z.toNat
        · simp [hxz]
        · have e1 : x.toNat = y.toNat := by omega
          have e2 : y.toNat = z.toNat := by omega
          have n1 : ¬x.toNat < y.toNat := by omega
          have n2 : ¬y.toNat < x.toNat := by omega
          have n3 : ¬y.toNat < z.toNat := by omega
          have n4 : ¬z.toNat < y.toNat := by omega
          have n5 : ¬z.toNat < x.toNat := by omega
          simp only [if_neg n1, if_neg n2] at hab
          simp only [if_neg n3, if_neg n4] at hbc
          simp only [if_neg hxz, if_neg n5]
          exact ih ys zs hab hbc

instance : IsTotal Str lexLeP := ⟨lexLe_total⟩

instance : IsTrans Str lexLeP := ⟨lexLe_trans⟩

instance : IsAntisymm Str lexLeP := ⟨lexLe_antisymm⟩

/-- The sort used by `mutate` (see the section comment: extensionally equal to
the stable byte-lexicographic sort of the Rust code). -/
def sortLex (l : List Str) : List Str := List.insertionSort lexLeP l

/-- Auxiliary for `dedupKeepFirst`: drop every element already seen. -/
def ddkAux {α} [DecidableEq α] (seen : List α) : List α → List α
  | [] => []
  | a :: as => if a ∈ seen then ddkAux seen as else a :: ddkAux (a :: seen) as

/-- Rust `itertools::unique`: keep the first occurrence of each element (tracking
the set of elements already emitted). -/
def dedupKeepFirst {α} [DecidableEq α] (l : List α) : List α := ddkAux [] l

/-- Rust `domain.split('.').count()`. -/
def labelCount (d : Str) : Nat := (splitOnSep '.' d).length

/-- The string constant `WWW = "www."`. -/
def wwwDot : Str := [ 'w', 'w', 'w', '.' ]

/-- Rust `domain.starts_with("www.")`. -/
def startsWithWWW (d : Str) : Bool := wwwDot.isPrefixOf d

/-- The per-domain step of `mutate`'s first pass: a three-label domain whose
first label is `www` is reduced to its bare form (`strip_prefix("www.")`,
i.e. dropping the four chars of the checked prefix). -/
def collapse (d : Str) : Str :=
  if decide (labelCount d = 3) && startsWithWWW d then d.drop 4 else d

/-- The filter of `mutate`'s second pass: two-label domains not already
starting with `"www."` receive a `www.` companion. -/
def qualifiesWWW (d : Str) : Bool := decide (labelCount d = 2) && !startsWithWWW d

/-- Line wrapping with the `AddlistConfig` accessors `prefix()` and `suffix()`,
which return the configured string or the empty string when unset. -/
def wrapLine (pre suf : Option Str) (d : Str) : Str := pre.getD [] ++ d ++ suf.getD []

/-- First pass of `mutate` (the `no_prefix` vector): collapse each domain,
keep first occurrences (`unique`), sort. -/
def noPfxOf (domains : List Str) : List Str :=
  sortLex (dedupKeepFirst (domains.map collapse))

/-- Second pass of `mutate` (the `prefix` vector): give every qualifying
domain of the first pass a `www.` companion, keep first occurrences, sort. -/
def wwwOf (noPfx : List Str) : List Str :=
  sortLex (dedupKeepFirst ((noPfx.filter qualifiesWWW).map (fun d => wwwDot ++ d)))

/-- The `mutate` function of `src/aggregate/lists.rs`.  `domains` is the
`HashSet` argument listed in an arbitrary iteration order; `pre`/`suf` are
`config.prefix` / `config.suffix`.  The two passes are concatenated; only
when a prefix or suffix is configured is each line wrapped. -/
def mutate (pre suf : Option Str) (domains : List Str) : List Str :=
  let combined := noPfxOf domains ++ wwwOf (noPfxOf domains)
  match pre, suf with
  | none, none => combined
  | _, _ => combined.map (wrapLine pre suf)

/-! ### Facts about `dedupKeepFirst`, `sortLex`, `collapse` -/

theorem mem_ddkAux {α} [DecidableEq α] (l : List α) :
    ∀ (seen : List α) (x : α), x ∈ ddkAux seen l ↔ x ∈ l ∧ x ∉ seen := by
  induction l with
  | nil => simp [ddkAux]
  | cons a as ih =>
    intro seen x
    unfold ddkAux
    split
    · next ha =>
      rw [ih seen x]
      simp only [List.mem_cons]
      constructor
      · rintro ⟨h1, h2⟩
        exact ⟨Or.inr h1, h2⟩
      · rintro ⟨h1 | h1, h2⟩
        · exact absurd (h1 ▸ ha) h2
        · exact ⟨h1, h2⟩
    · next ha =>
      simp only [List.mem_cons, ih (a :: seen) x, List.mem_cons]
      constructor
      · rintro (rfl | ⟨h1, h2⟩)
        · exact ⟨Or.inl rfl, ha⟩
        · exact ⟨Or.inr h1, fun hs => h2 (Or.inr hs)⟩
      · rintro ⟨rfl | h1, h2⟩
        · exact Or.inl rfl
        · by_cases hxa : x = a
          · exact Or.inl hxa
          · exact Or.inr ⟨h1, fun hs => (hs.elim hxa h2)⟩

theorem mem_dedupKeepFirst {α} [DecidableEq α] (l : List α) (x : α) :
    x ∈ dedupKeepFirst l ↔ x ∈ l := by
  unfold dedupKeepFirst
  rw [mem_ddkAux]
  simp

theorem nodup_ddkAux {α} [DecidableEq α] (l : List α) :
    ∀ seen : List α, (ddkAux seen l).Nodup := by
  induction l with
  | nil => intro seen; simp [ddkAux]
  | cons a as ih =>
    intro seen
    unfold ddkAux
    split
    · exact ih seen
    · refine List.nodup_cons.mpr ⟨?_, ih (a :: seen)⟩
      intro hmem
      exact ((mem_ddkAux as (a :: seen) a).mp hmem).2 (List.mem_cons_self a seen)

theorem nodup_dedupKeepFirst {α} [DecidableEq α] (l : List α) :
    (dedupKeepFirst l).Nodup := nodup_ddkAux l []

theorem ddkAux_eq_nil_of_seen {α} [DecidableEq α] (X : List α) :
    ∀ seen : List α, (∀ x ∈ X, x ∈ seen) → ddkAux seen X = [] := by
  induction X with
  | nil => intro seen _; rfl
  | cons a as ih =>
    intro seen hX
    unfold ddkAux
    rw [if_pos (hX a (List.mem_cons_self a as))]
    exact ih seen (fun x hx => hX x (List.mem_cons_of_mem a hx))

theorem ddkAux_append_of_subset {α} [DecidableEq α] (B : List α) :
    ∀ (X seen : List α), B.Nodup → (∀ x ∈ B, x ∉ seen) →
      (∀ x ∈ X, x ∈ seen ∨ x ∈ B) → ddkAux seen (B ++ X) = B := by
  induction B with
  | nil =>
    intro X seen _ _ hX
    exact ddkAux_eq_nil_of_seen X seen
      (fun x hx => (hX x hx).elim id (fun h => absurd h (List.not_mem_nil x)))
  | cons b B' ih =>
    intro X seen hB hseen hX
    obtain ⟨hb, hB'⟩ := List.nodup_cons.mp hB
    show ddkAux seen (b :: (B' ++ X)) = b :: B'
    unfold ddkAux
    rw [if_neg (hseen b (List.mem_cons_self b B'))]
    rw [ih X (b :: seen) hB' ?_ ?_]
    · intro x hx hmem
      rcases List.mem_cons.mp hmem with rfl | hxs
      · exact hb hx
      · exact hseen x (List.mem_cons_of_mem b hx) hxs
    · intro x hx
      rcases hX x hx with h | h
      · exact Or.inl (List.mem_cons_of_mem b h)
      · rcases List.mem_cons.mp h with rfl | h2
        · exact Or.inl (List.mem_cons_self x seen)
        · exact Or.inr h2

theorem dedupKeepFirst_append_of_subset {α} [DecidableEq α] (B X : List α)
    (hB : B.Nodup) (hX : ∀ x ∈ X, x ∈ B) : dedupKeepFirst (B ++ X) = B :=
  ddkAux_append_of_subset B X [] hB (fun x _ => List.not_mem_nil x)
    (fun x hx => Or.inr (hX x hx))

theorem sortLex_sorted (l : List Str) : List.Sorted lexLeP (sortLex l) :=
  List.sorted_insertionSort lexLeP l

theorem sortLex_perm (l : List Str) : (sortLex l).Perm l :=
  List.perm_insertionSort lexLeP l

theorem mem_sortLex {l : List Str} {x : Str} : x ∈ sortLex l ↔ x ∈ l :=
  (sortLex_perm l).mem_iff

theorem sortLex_eq_of_sorted {l : List Str} (h : List.Sorted lexLeP l) :
    sortLex l = l :=
  List.Sorted.insertionSort_eq h

theorem splitOnSep_cons_of_ne (sep a : Char) (t : Str) (ha : a ≠ sep)
    {lab : Str} {labs : List Str} (h : splitOnSep sep t = lab :: labs) :
    splitOnSep sep (a :: t) = (a :: lab) :: labs := by
  simp only [splitOnSep, if_neg ha, h]

theorem splitOnSep_cons_sep (sep : Char) (t : Str) :
    splitOnSep sep (sep :: t) = [] :: splitOnSep sep t := by
  simp [splitOnSep]

theorem splitOnSep_www (d : Str) :
    splitOnSep '.' (wwwDot ++ d) = [ 'w', 'w', 'w' ] :: splitOnSep '.' d := by
  have h0 : splitOnSep '.' ('.' :: d) = [] :: splitOnSep '.' d :=
    splitOnSep_cons_sep '.' d
  have h1 := splitOnSep_cons_of_ne '.' 'w' ('.' :: d) (by decide) h0
  have h2 := splitOnSep_cons_of_ne '.' 'w' ('w' :: '.' :: d) (by decide) h1
  exact splitOnSep_cons_of_ne '.' 'w' ('w' :: 'w' :: '.' :: d) (by decide) h2

theorem labelCount_www_append (d : Str) :
    labelCount (wwwDot ++ d) = labelCount d + 1 := by
  unfold labelCount
  rw [splitOnSep_www]
  rfl

theorem startsWithWWW_iff (d : Str) :
    startsWithWWW d = true ↔ ∃ rest, d = wwwDot ++ rest := by
  unfold startsWithWWW
  rw [ List.isPrefixOf_iff_prefix]
  constructor
  · rintro ⟨t, ht⟩
    exact ⟨t, ht.symm⟩
  · rintro ⟨t, ht⟩
    exact ⟨t, ht.symm⟩

theorem collapse_www {d : Str} (h2 : labelCount d = 2) :
    collapse (wwwDot ++ d) = d := by
  unfold collapse
  rw [if_pos]
  · show ('w' :: 'w' :: 'w' :: '.' :: d).drop 4 = d
    rfl
  · rw [Bool.and_eq_true]
    refine ⟨decide_eq_true ?_, ?_⟩
    · rw [labelCount_www_append, h2]
    · exact (startsWithWWW_iff _).mpr ⟨d, rfl⟩

theorem collapse_of_neg {d : Str}
    (h : ¬(labelCount d = 3 ∧ startsWithWWW d = true)) : collapse d = d := by
  unfold collapse
  rw [if_neg]
  intro hcond
  rw [Bool.and_eq_true] at hcond
  exact h ⟨of_decide_eq_true hcond.1, hcond.2⟩

/-- The first pass never outputs a three-label domain still carrying the
`www.` marker: such an input is collapsed, and the collapsed form has one
label fewer. -/
theorem collapse_not_www3 (d : Str) :
    ¬(labelCount (collapse d) = 3 ∧ startsWithWWW (collapse d) = true) := by
  by_cases hcond : labelCount d = 3 ∧ startsWithWWW d = true
  · obtain ⟨h3, hw⟩ := hcond
    obtain ⟨rest, rfl⟩ := (startsWithWWW_iff d).mp hw
    rw [labelCount_www_append] at h3
    have hcol : collapse (wwwDot ++ rest) = rest := collapse_www (by omega)
    rw [hcol]
    rintro ⟨hr3, _⟩
    omega
  · rw [collapse_of_neg hcond]
    exact hcond

theorem collapse_collapse (d : Str) : collapse (collapse d) = collapse d :=
  collapse_of_neg (collapse_not_www3 d)

theorem mem_noPfxOf {x : Str} {domains : List Str} :
    x ∈ noPfxOf domains ↔ ∃ d ∈ domains, collapse d = x := by
  unfold noPfxOf
  rw [mem_sortLex, mem_dedupKeepFirst, List.mem_map]

theorem mem_wwwOf {x : Str} {np : List Str} :
    x ∈ wwwOf np ↔ ∃ d ∈ np, qualifiesWWW d = true ∧ x = wwwDot ++ d := by
  unfold wwwOf
  rw [mem_sortLex, mem_dedupKeepFirst, List.mem_map]
  constructor
  · rintro ⟨d, hd, rfl⟩
    obtain ⟨hdnp, hq⟩ := List.mem_filter.mp hd
    exact ⟨d, hdnp, hq, rfl⟩
  · rintro ⟨d, hdnp, hq, rfl⟩
    exact ⟨d, List.mem_filter.mpr ⟨hdnp, hq⟩, rfl⟩

/-- The two passes are disjoint: a `www.` companion has three labels and the
`www.` marker, which no first-pass element has. -/
theorem noPfx_www_disjoint (domains : List Str) :
    (noPfxOf domains).Disjoint (wwwOf (noPfxOf domains)) := by
  intro x hxA hxB
  obtain ⟨d, _, rfl⟩ := mem_noPfxOf.mp hxA
  obtain ⟨e, _, hq, heq⟩ := mem_wwwOf.mp hxB
  simp only [qualifiesWWW, Bool.and_eq_true, decide_eq_true_eq] at hq
  refine collapse_not_www3 d ⟨?_, ?_⟩
  · rw [heq, labelCount_www_append, hq.1]
  · rw [heq]
    exact (startsWithWWW_iff _).mpr ⟨e, rfl⟩

theorem nodup_noPfxOf (domains : List Str) : (noPfxOf domains).Nodup :=
  (sortLex_perm _).nodup_iff.mpr (nodup_dedupKeepFirst _)

theorem nodup_wwwOf (np : List Str) : (wwwOf np).Nodup :=
  (sortLex_perm _).nodup_iff.mpr (nodup_dedupKeepFirst _)

theorem mutate_eq_map (pre suf : Option Str) (domains : List Str) :
    mutate pre suf domains =
      (noPfxOf domains ++ wwwOf (noPfxOf domains)).map (wrapLine pre suf) := by
  cases pre with
  | none =>
    cases suf with
    | none =>
      show noPfxOf domains ++ wwwOf (noPfxOf domains) = _
      rw [map_id_of_mem]
      intro x _
      simp [wrapLine]
    | some s => rfl
  | some p => cases suf <;> rfl

theorem sorted_noPfxOf (domains : List Str) : List.Sorted lexLeP (noPfxOf domains) :=
  sortLex_sorted _

theorem sorted_wwwOf (np : List Str) : List.Sorted lexLeP (wwwOf np) :=
  sortLex_sorted _

/-! ### Claim C4: the shape of `mutate`'s output -/

/-- C4, counterexample: the output of `mutate` is not sorted ascending as one
sequence.  On the single-domain set `{"z.c"}` the output is
`["z.c", "www.z.c"]`, and `"www.z.c" < "z.c"` in codepoint order. -/
theorem mutate_sorted_counterexample :
    ¬ List.Sorted lexLeP (mutate none none [ [ 'z', '.', 'c' ] ]) := by decide

/-- C4 (amended): for every input the returned sequence is duplicate-free and
consists of two individually sorted segments — the deduplicated
bare-or-unchanged domains followed by the generated `www.` companions — each
line wrapped as prefix + domain + suffix (empty string when unset); the
concatenation as a whole is not re-sorted. -/
theorem mutate_shape (pre suf : Option Str) (domains : List Str) :
    ∃ A B : List Str,
      mutate pre suf domains = (A ++ B).map (wrapLine pre suf) ∧
      (A ++ B).Nodup ∧
      List.Sorted lexLeP A ∧ List.Sorted lexLeP B ∧
      (∀ x, x ∈ A ↔ ∃ d ∈ domains, collapse d = x) ∧
      (∀ x, x ∈ B ↔ ∃ d ∈ A, qualifiesWWW d = true ∧ x = wwwDot ++ d) := by
  refine ⟨noPfxOf domains, wwwOf (noPfxOf domains),
    mutate_eq_map pre suf domains, ?_, sorted_noPfxOf _, sorted_wwwOf _,
    fun x => mem_noPfxOf, fun x => mem_wwwOf⟩
  exact List.nodup_append.mpr
    ⟨nodup_noPfxOf _, nodup_wwwOf _, noPfx_www_disjoint _⟩

/-- C4 witness: the shape theorem instantiated at the concrete input
`{"z.c"}` with no prefix and no suffix. -/
theorem mutate_shape_witness :
    ∃ A B : List Str,
      mutate none none [ [ 'z', '.', 'c' ] ] = (A ++ B).map (wrapLine none none) ∧
      (A ++ B).Nodup ∧
      List.Sorted lexLeP A ∧ List.Sorted lexLeP B ∧
      (∀ x, x ∈ A ↔ ∃ d ∈ [ [ 'z', '.', 'c' ] ], collapse d = x) ∧
      (∀ x, x ∈ B ↔ ∃ d ∈ A, qualifiesWWW d = true ∧ x = wwwDot ++ d) :=
  mutate_shape none none [ [ 'z', '.', 'c' ] ]

/-! ### Claim C5: idempotence of `mutate` without prefix/suffix -/

/-- The first pass is a no-op on `mutate`'s own (unwrapped) output: first-pass
elements are `collapse` fixed points, second-pass elements collapse back onto
first-pass elements, and deduplication plus re-sorting then reproduce the
first pass exactly. -/
theorem noPfxOf_mutate_out (domains : List Str) :
    noPfxOf (noPfxOf domains ++ wwwOf (noPfxOf domains)) = noPfxOf domains := by
  have hAcol : ∀ a ∈ noPfxOf domains, collapse a = a := by
    intro a ha
    obtain ⟨d, _, rfl⟩ := mem_noPfxOf.mp ha
    exact collapse_collapse d
  have hBcol : ∀ b ∈ wwwOf (noPfxOf domains), collapse b ∈ noPfxOf domains := by
    intro b hb
    obtain ⟨e, he, hq, rfl⟩ := mem_wwwOf.mp hb
    simp only [qualifiesWWW, Bool.and_eq_true, decide_eq_true_eq] at hq
    rw [collapse_www hq.1]
    exact he
  show sortLex (dedupKeepFirst
      ((noPfxOf domains ++ wwwOf (noPfxOf domains)).map collapse)) = noPfxOf domains
  rw [List.map_append, map_id_of_mem collapse _ hAcol]
  rw [dedupKeepFirst_append_of_subset _ _ (nodup_noPfxOf domains) ?_]
  · exact sortLex_eq_of_sorted (sorted_noPfxOf domains)
  · intro x hx
    obtain ⟨b, hb, rfl⟩ := List.mem_map.mp hx
    exact hBcol b hb

/-- C5: with no prefix and no suffix configured, `mutate` is idempotent —
re-running it on its own output reproduces that output exactly (no duplicates
created, no entries dropped). -/
theorem mutate_idem (domains : List Str) :
    mutate none none (mutate none none domains) = mutate none none domains := by
  have h1 : mutate none none domains =
      noPfxOf domains ++ wwwOf (noPfxOf domains) := rfl
  rw [h1]
  show noPfxOf (noPfxOf domains ++ wwwOf (noPfxOf domains)) ++
      wwwOf (noPfxOf (noPfxOf domains ++ wwwOf (noPfxOf domains))) =
      noPfxOf domains ++ wwwOf (noPfxOf domains)
  rw [noPfxOf_mutate_out]

/-! ### Parser, whitelist resolver and `addlist` (`src/aggregate/lists.rs`)

The external collaborators of the pipeline are collected in `Ext`:
`low` is `String::to_lowercase`, `isWs` is the Unicode `char::is_whitespace`
used by `split_whitespace`, `puny` is `punycode::encode`, `uAlnum` is the
Unicode `char::is_alphanumeric`, and `fetchRes url` is the outcome of
`fetch(url, &client)` — `some body` exactly when the GET returned status 200
with a decodable text body. -/

structure Ext where
  low : Str → Str
  isWs : Char → Bool
  puny : Str → Option Str
  uAlnum : Char → Bool
  fetchRes : Str → Option Str

/-- Rust `str::lines` piece post-processing: drop one `'\r'` kept in front of
the `'\n'` separator. -/
def stripCR (line : Str) : Str :=
  match line.getLast? with
  | some '\r' => line.dropLast
  | _ => line

/-- Rust `str::lines`: split at `'\n'`, strip a `'\r'` from the end of every
newline-terminated piece, and drop a final empty piece (the optional final
line ending). -/
def linesOf (l : Str) : List Str :=
  let ps := splitOnSep '\n' l
  ps.dropLast.map stripCR ++
    (match ps.getLast? with
     | some [] => []
     | none => []
     | some last => [last])

/-- The comment strip of `parse`: `line.find('#')` and slice up to it. -/
def stripComment (line : Str) : Str := line.takeWhile (fun c => c ≠ '#')

/-- Auxiliary for `splitWs`: accumulate the current token (reversed). -/
def splitWsAux (isWs : Char → Bool) : Str → Str → List Str
  | [], acc => if acc.isEmpty then [] else [acc.reverse]
  | c :: rest, acc =>
    if isWs c then
      if acc.isEmpty then splitWsAux isWs rest []
      else acc.reverse :: splitWsAux isWs rest []
    else splitWsAux isWs rest (c :: acc)

/-- Rust `str::split_whitespace`: split on runs of whitespace, no empty
tokens. -/
def splitWs (isWs : Char → Bool) (l : Str) : List Str := splitWsAux isWs l []

/-- The `parse` function: lowercase the body, per line strip the comment
suffix, split on whitespace, validate each token, collect the successes into
a set (modelled as a first-occurrence-deduplicated list). -/
def parse (E : Ext) (raw : Str) : List Str :=
  dedupKeepFirst
    ((((linesOf (E.low raw)).map stripComment).flatMap (splitWs E.isWs)).filterMap
      (validate E.puny E.uAlnum))

/-- The `whitelist` function: `None` sources give no whitelist; otherwise
fetch and parse every source URL and union the results. -/
def whitelistFn (E : Ext) (sources : Option (List Str)) : Option (List Str) :=
  match sources with
  | some srcs => some (dedupKeepFirst ((srcs.filterMap E.fetchRes).flatMap (parse E)))
  | none => none

/-- The `AddlistSources` struct: source URLs and optional whitelist URLs
(`HashSet`s, modelled as lists in iteration order). -/
structure AddlistSources where
  addlist : List Str
  whitelist : Option (List Str)
deriving DecidableEq

/-- The `Config` struct (`src/config.rs`).  The `addlist` map field is called
`addlistMap` here; `pre`/`suf` are the optional line prefix and suffix. -/
structure Config where
  threads : Option Nat
  addlistMap : List (Str × AddlistSources)
  whitelist : Option (List Str)
  size : Option Nat
  path : Str
  pre : Option Str
  suf : Option Str
deriving DecidableEq

/-- The `AddlistConfig` struct (`src/lib/aggregate/data.rs`). -/
structure AddlistConfig where
  name : Str
  config : Config
deriving DecidableEq

/-- The `Addlist` result struct. -/
structure Addlist where
  name : Str
  list : List Str
deriving DecidableEq

/-- The filtered domain set built inside `addlist`: fetch and parse every
source, keep the domains absent from the Global Whitelist and absent from the
reduced (Global-subtracted) Local Whitelist, and collect into a set. -/
def localReducedWhitelist (E : Ext) (sources : AddlistSources) (G : List Str) :
    List Str :=
  ((whitelistFn E sources.whitelist).getD []).filter (fun d => !decide (d ∈ G))

def addlistData (E : Ext) (sources : AddlistSources) (G : List Str) : List Str :=
  dedupKeepFirst
    ((((sources.addlist.filterMap E.fetchRes).flatMap (parse E)).filter
        (fun d => !decide (d ∈ G))).filter
      (fun d => !decide (d ∈ localReducedWhitelist E sources G)))

/-- The `addlist` function: `None` exactly when the configured name has no
entry in the addlist map; otherwise the mutated filtered data under that
name. -/
def addlist (E : Ext) (cfg : AddlistConfig) (G : List Str) : Option Addlist :=
  match cfg.config.addlistMap.lookup cfg.name with
  | none => none
  | some sources =>
    some { name := cfg.name
           list := mutate cfg.config.pre cfg.config.suf (addlistData E sources G) }

/-- Modelled from the spec (§4.4 Filter): "keep a domain iff absent from the
Global Whitelist and absent from the reduced Local Whitelist", with the
reduction dropped — filtering against the full Local Whitelist.  Stated only
for comparison with `addlistData` (claim C8). -/
def addlistDataFullL (E : Ext) (sources : AddlistSources) (G : List Str) : List Str :=
  dedupKeepFirst
    ((((sources.addlist.filterMap E.fetchRes).flatMap (parse E)).filter
        (fun d => !decide (d ∈ G))).filter
      (fun d => !decide (d ∈ (whitelistFn E sources.whitelist).getD [])))

/-! ### Concrete external functions for witnesses

The witnesses below only involve all-lowercase ASCII data, on which the Rust
std functions agree with these transcriptions: `to_lowercase` maps `A`-`Z`
down by 32 and fixes the rest, `is_whitespace` on ASCII is
`{' ', '\t', '\n', '\x0B', '\x0C', '\r'}`, Unicode `is_alphanumeric`
restricted to ASCII is `isAsciiAlnumC`, and `punycode::encode` is never
reached for ASCII labels (so the always-failing encoder is adequate). -/

def asciiLower (c : Char) : Char :=
  if 65 ≤ c.toNat ∧ c.toNat ≤ 90 then Char.ofNat (c.toNat + 32) else c

def stdLower (s : Str) : Str := s.map asciiLower

def stdIsWs (c : Char) : Bool :=
  c = ' ' || c = '\t' || c = '\n' || c = '\r' || c.toNat = 11 || c.toNat = 12

/-- Externals for the C2 counterexample: fetching the single source URL `"u"`
yields the body `"www.a.c"`. -/
def cexExt : Ext :=
  { low := stdLower, isWs := stdIsWs, puny := fun _ => none,
    uAlnum := isAsciiAlnumC,
    fetchRes := fun u =>
      if u = [ 'u' ] then some [ 'w', 'w', 'w', '.', 'a', '.', 'c' ] else none }

def cexSources : AddlistSources := { addlist := [ [ 'u' ] ], whitelist := none }

def cexConfig : AddlistConfig :=
  { name := [ 'n' ],
    config := { threads := none, addlistMap := [ ([ 'n' ], cexSources) ],
                whitelist := none, size := none, path := [],
                pre := none, suf := none } }

/-! ### Claim C2: the Global Whitelist and the final output -/

/-- C2, counterexample: a globally whitelisted domain can appear in an
addlist's final output.  With Global Whitelist `{"a.c"}` and a source serving
only `"www.a.c"` (which is not whitelisted and so survives the filter), the
`www.`-collapse of `mutate` re-creates `"a.c"` in the output lines. -/
theorem addlist_emits_whitelisted :
    ∃ r, addlist cexExt cexConfig [ [ 'a', '.', 'c' ] ] = some r ∧
      [ 'a', '.', 'c' ] ∈ [ [ 'a', '.', 'c' ] ] ∧ [ 'a', '.', 'c' ] ∈ r.list := by
  refine ⟨{ name := [ 'n' ],
            list := [ [ 'a', '.', 'c' ],
                      [ 'w', 'w', 'w', '.', 'a', '.', 'c' ] ] }, ?_, ?_, ?_⟩
  · decide
  · decide
  · decide

/-- C2 (amended): for every d in the Global Whitelist, d never appears in the
filtered domain set handed to `mutate` — the filter itself never passes a
globally whitelisted domain on; only the `www.`-expansion step can re-emit
one. -/
theorem global_whitelist_filtered (E : Ext) (sources : AddlistSources)
    (G : List Str) (d : Str) (hd : d ∈ G) : d ∉ addlistData E sources G := by
  intro hmem
  unfold addlistData at hmem
  rw [mem_dedupKeepFirst] at hmem
  have h1 := (List.mem_filter.mp ((List.mem_filter.mp hmem).1)).2
  simp only [Bool.not_eq_true', decide_eq_false_iff_not] at h1
  exact h1 hd

/-- C2 witness: the amended theorem at the counterexample's own instance —
`"a.c"` is whitelisted and indeed absent from the filtered set (even though
it reappears in the final lines). -/
theorem global_whitelist_filtered_witness :
    [ 'a', '.', 'c' ] ∉ addlistData cexExt cexSources [ [ 'a', '.', 'c' ] ] :=
  global_whitelist_filtered cexExt cexSources [ [ 'a', '.', 'c' ] ]
    [ 'a', '.', 'c' ] (by decide)

/-! ### Claim C8: reducing the Local Whitelist is sound -/

/-- C8: filtering against the reduced Local Whitelist `L \ G` keeps exactly
the same domains as filtering against the full `L`: the first filter already
removed everything in `G`. -/
theorem local_whitelist_reduction (E : Ext) (sources : AddlistSources)
    (G : List Str) :
    addlistData E sources G = addlistDataFullL E sources G := by
  unfold addlistData addlistDataFullL
  congr 1
  apply List.filter_congr
  intro x hx
  have hxG : x ∉ G := by
    have h1 := (List.mem_filter.mp hx).2
    simpa using h1
  have hiff : x ∈ localReducedWhitelist E sources G ↔
      x ∈ (whitelistFn E sources.whitelist).getD [] := by
    unfold localReducedWhitelist
    rw [List.mem_filter]
    exact ⟨fun h => h.1, fun h => ⟨h, by simpa using hxG⟩⟩
  simp [hiff]

/-! ### Claim C10: presence of the name decides the result -/

theorem mutate_nil (pre suf : Option Str) : mutate pre suf [] = [] := by
  cases pre <;> cases suf <;> rfl

/-- C10: `addlist` returns `none` iff the configured name is absent from the
addlist map; for a present name it returns a result carrying that name, and
if every source fetch (and every whitelist fetch) yields no data, the line
list is empty. -/
theorem addlist_name_spec (E : Ext) (cfg : AddlistConfig) (G : List Str) :
    (addlist E cfg G = none ↔ cfg.config.addlistMap.lookup cfg.name = none) ∧
    (∀ s, cfg.config.addlistMap.lookup cfg.name = some s →
      ∃ r, addlist E cfg G = some r ∧ r.name = cfg.name) ∧
    (∀ s, cfg.config.addlistMap.lookup cfg.name = some s →
      (∀ u ∈ s.addlist, E.fetchRes u = none) →
      (∀ ws, s.whitelist = some ws → ∀ u ∈ ws, E.fetchRes u = none) →
      ∃ r, addlist E cfg G = some r ∧ r.name = cfg.name ∧ r.list = []) := by
  refine ⟨?_, ?_, ?_⟩
  · unfold addlist
    cases h : cfg.config.addlistMap.lookup cfg.name <;> simp
  · intro s hs
    unfold addlist
    rw [hs]
    exact ⟨_, rfl, rfl⟩
  · intro s hs hfetch _
    unfold addlist
    rw [hs]
    refine ⟨_, rfl, rfl, ?_⟩
    have hdata : addlistData E s G = [] := by
      unfold addlistData
      rw [List.filterMap_eq_nil_iff.mpr hfetch]
      rfl
    rw [hdata, mutate_nil]

/-- C10 witness: a configuration whose single addlist entry has one source
URL, every fetch failing — the result exists, carries the name, and is
empty. -/
theorem addlist_name_spec_witness :
    ∃ r, addlist { cexExt with fetchRes := fun _ => none } cexConfig [] = some r ∧
      r.name = [ 'n' ] ∧ r.list = [] :=
  (addlist_name_spec { cexExt with fetchRes := fun _ => none } cexConfig []).2.2
    cexSources (by decide) (fun u _ => rfl) (by intro ws hws; cases hws)

/-! ### Thread-pool construction (`src/thread.rs` and `src/lib/thread.rs`)

`ThreadPool::new` is embedded as the worker-id list it spawns (`0..capacity`)
or the construction error.  `cores` is `num_cpus::get()`; a requested count is
`Some t` with `t ≥ 1` (`NonZeroUsize`). -/

/-- The `ThreadPool::new` of the binary crate (`src/thread.rs`): the requested
count is compared with `limit.cmp(&threads)` — `Less | Equal` accepts the
request, `Greater` errors. -/
def threadPoolNewBin (cores : Nat) (threads : Option Nat) : Except Str (List Nat) :=
  match threads with
  | some t =>
    match compare (cores / 2) t with
    | Ordering.lt => Except.ok (List.range t)
    | Ordering.eq => Except.ok (List.range t)
    | Ordering.gt =>
      Except.error ('T' :: 'h' :: 'e' :: ' ' :: 't' :: 'h' :: 'r' :: 'e' :: 'a' :: 'd' :: 's' :: [])
  | none => Except.ok (List.range (cores / 2))

/-- The `ThreadPool::new` of the library crate (`src/lib/thread.rs`): errors when
`max < size`. -/
def threadPoolNewLib (cores : Nat) (size : Nat) : Except Str (List Nat) :=
  if cores / 2 < size then
    Except.error ('T' :: 'h' :: 'e' :: ' ' :: 't' :: 'h' :: 'r' :: 'e' :: 'a' :: 'd' :: 's' :: [])
  else Except.ok (List.range size)

/-! ### Claim C1: the construction bound -/

/-- C1: the binary crate's comparison is inverted.  On an 8-core host
(limit 4) a request of 2 threads — squarely within the claimed bound — fails,
while a request of 10 threads — above the bound — succeeds with 10 workers.
This contradicts the function's own doc comment ("creation failes when the
number of threads grather than a half of all logical cores") and the library
crate's implementation, which both match the claim. -/
theorem threadPool_bin_inverted :
    (∀ w, threadPoolNewBin 8 (some 2) ≠ Except.ok w) ∧
    threadPoolNewBin 8 (some 10) = Except.ok (List.range 10) ∧
    (∀ e, threadPoolNewLib 8 2 ≠ Except.error e) ∧
    (∀ w, threadPoolNewLib 8 10 ≠ Except.ok w) := by
  refine ⟨?_, rfl, ?_, ?_⟩
  · intro w h
    exact Except.noConfusion h
  · intro e h
    exact Except.noConfusion h
  · intro w h
    exact Except.noConfusion h

/-! ### Claim C3: the default thread count -/

/-- C3, counterexample: on a single-core host the default construction
succeeds with zero workers, not the claimed minimum of one. -/
theorem threadPool_default_no_min :
    threadPoolNewBin 1 none = Except.ok [] ∧
    ([] : List Nat).length ≠ max (1 / 2) 1 := by
  exact ⟨rfl, by decide⟩

/-- C3 (amended): with no thread count specified, construction always
succeeds and spawns exactly `floor(cores / 2)` workers — with no minimum, so
a host with fewer than two logical cores gets a pool with zero workers. -/
theorem threadPool_default (cores : Nat) :
    threadPoolNewBin cores none = Except.ok (List.range (cores / 2)) ∧
    (List.range (cores / 2)).length = cores / 2 :=
  ⟨rfl, List.length_range _⟩

/-! ### The worker pool drain protocol (`src/thread.rs`)

The shutdown protocol is modelled as a transition system.  A pool state holds
the message queue (the `mpsc` channel: all `execute`d jobs, in order, followed
by the `Terminate` sentinels that `Drop` sends, one per worker), the status of
every worker, and the multiset of completed job ids.  The mutex around the
receiver makes each dequeue atomic; a worker that dequeued a job finishes it
before receiving again (`job(); …  loop`), and a worker that dequeues
`Terminate` breaks out of its loop (its thread can then be joined).  Teardown
(`Drop`) returns once every worker is `done` — it joins every thread.  Job
panics are outside this model: the spec and the code treat a panicking job as
a separately reported, unretried loss, and the claim speaks of jobs that run
to completion. -/

inductive Msg where
  | job (id : Nat)
  | term
deriving DecidableEq

inductive WStatus where
  | idle
  | running (id : Nat)
  | done
deriving DecidableEq

structure PoolState where
  queue : List Msg
  workers : List WStatus
  completed : List Nat
deriving DecidableEq

/-- The state after `K` jobs were submitted via `execute` and the pool handle
was released (`Drop` enqueued one `Terminate` per worker): no job has started
yet, all `N` workers idle. -/
def initPool (K N : Nat) : PoolState :=
  { queue := (List.range K).map Msg.job ++ List.replicate N Msg.term,
    workers := List.replicate N WStatus.idle,
    completed := [] }

/-- One scheduler step: some idle worker atomically dequeues the head message
(a job starts running, or a terminate retires the worker), or a running
worker finishes its job. -/
inductive PoolStep : PoolState → PoolState → Prop where
  | recvJob (j : Nat) (q : List Msg) (l r : List WStatus) (c : List Nat) :
      PoolStep ⟨Msg.job j :: q, l ++ WStatus.idle :: r, c⟩
               ⟨q, l ++ WStatus.running j :: r, c⟩
  | recvTerm (q : List Msg) (l r : List WStatus) (c : List Nat) :
      PoolStep ⟨Msg.term :: q, l ++ WStatus.idle :: r, c⟩
               ⟨q, l ++ WStatus.done :: r, c⟩
  | finishJob (j : Nat) (q : List Msg) (l r : List WStatus) (c : List Nat) :
      PoolStep ⟨q, l ++ WStatus.running j :: r, c⟩
               ⟨q, l ++ WStatus.idle :: r, c ++ [j]⟩

/-- Reachability under arbitrary interleaving. -/
def PoolReach (s t : PoolState) : Prop := Relation.ReflTransGen PoolStep s t

/-- Teardown has returned: every worker consumed its terminate and was
joined. -/
def AllDone (s : PoolState) : Prop := ∀ w ∈ s.workers, w = WStatus.done

/-- Number of retired workers (= number of consumed terminate signals). -/
def doneCount (ws : List WStatus) : Nat := ws.countP (fun w => w = WStatus.done)

/-- Ids of jobs currently being executed. -/
def runningJobs (ws : List WStatus) : List Nat :=
  ws.filterMap (fun w => match w with | WStatus.running j => some j | _ => none)

/-- Inductive invariant of the drain protocol: the queue is the not-yet-started
jobs followed by the unconsumed terminates; completed, running and queued jobs
partition `0..K`; and once any terminate was consumed, no job remains queued
(jobs precede terminates in the FIFO queue). -/
def PoolInv (K N : Nat) (s : PoolState) : Prop :=
  s.workers.length = N ∧
  doneCount s.workers ≤ N ∧
  ∃ rjobs : List Nat,
    s.queue = rjobs.map Msg.job ++
      List.replicate (N - doneCount s.workers) Msg.term ∧
    (s.completed ++ runningJobs s.workers ++ rjobs).Perm (List.range K) ∧
    (1 ≤ doneCount s.workers → rjobs = [])

theorem doneCount_idle (l r : List WStatus) :
    doneCount (l ++ WStatus.idle :: r) = doneCount l + doneCount r := by
  unfold doneCount
  rw [List.countP_append, List.countP_cons]
  simp

theorem doneCount_running (l r : List WStatus) (j : Nat) :
    doneCount (l ++ WStatus.running j :: r) = doneCount l + doneCount r := by
  unfold doneCount
  rw [List.countP_append, List.countP_cons]
  simp

theorem doneCount_done (l r : List WStatus) :
    doneCount (l ++ WStatus.done :: r) = doneCount l + doneCount r + 1 := by
  unfold doneCount
  rw [List.countP_append, List.countP_cons]
  simp [Nat.add_assoc]

theorem runningJobs_idle (l r : List WStatus) :
    runningJobs (l ++ WStatus.idle :: r) = runningJobs l ++ runningJobs r := by
  unfold runningJobs
  rw [List.filterMap_append, List.filterMap_cons]

theorem runningJobs_done (l r : List WStatus) :
    runningJobs (l ++ WStatus.done :: r) = runningJobs l ++ runningJobs r := by
  unfold runningJobs
  rw [List.filterMap_append, List.filterMap_cons]

theorem runningJobs_running (l r : List WStatus) (j : Nat) :
    runningJobs (l ++ WStatus.running j :: r) =
      runningJobs l ++ j :: runningJobs r := by
  unfold runningJobs
  rw [List.filterMap_append, List.filterMap_cons]

theorem perm_shuffle1 (c fl fr rj : List Nat) (j : Nat) :
    (c ++ (fl ++ j :: fr) ++ rj).Perm (c ++ (fl ++ fr) ++ (j :: rj)) := by
  have h1 : fl ++ j :: fr = fl ++ [j] ++ fr := by simp
  have h2 : j :: rj = [j] ++ rj := rfl
  rw [← Multiset.coe_eq_coe, h1, h2]
  simp only [← Multiset.coe_add]
  abel

theorem perm_shuffle2 (c fl fr rj : List Nat) (j : Nat) :
    ((c ++ [j]) ++ (fl ++ fr) ++ rj).Perm (c ++ (fl ++ j :: fr) ++ rj) := by
  have h1 : fl ++ j :: fr = fl ++ [j] ++ fr := by simp
  rw [← Multiset.coe_eq_coe, h1]
  simp only [← Multiset.coe_add]
  abel

theorem poolInv_init (K N : Nat) : PoolInv K N (initPool K N) := by
  have hdc0 : doneCount (List.replicate N WStatus.idle) = 0 := by
    have hall : ∀ a ∈ List.replicate N WStatus.idle,
        ¬((fun w => decide (w = WStatus.done)) a = true) := by
      intro a ha
      rw [List.eq_of_mem_replicate ha]
      simp
    unfold doneCount
    exact List.countP_eq_zero.mpr hall
  have hrun : runningJobs (List.replicate N WStatus.idle) = [] := by
    unfold runningJobs
    rw [List.filterMap_eq_nil_iff.mpr]
    intro a ha
    rw [List.eq_of_mem_replicate ha]
  refine ⟨List.length_replicate N _, ?_, List.range K, ?_, ?_, ?_⟩
  · show doneCount (List.replicate N WStatus.idle) ≤ N
    rw [hdc0]
    exact Nat.zero_le N
  · show (List.range K).map Msg.job ++ List.replicate N Msg.term =
      (List.range K).map Msg.job ++
        List.replicate (N - doneCount (List.replicate N WStatus.idle)) Msg.term
    rw [hdc0, Nat.sub_zero]
  · show (([] : List Nat) ++ runningJobs (List.replicate N WStatus.idle) ++
        List.range K).Perm (List.range K)
    rw [hrun]
    simp
  · intro h1
    exfalso
    have h0 : doneCount (initPool K N).workers = 0 := hdc0
    omega

theorem poolInv_step {K N : Nat} {s t : PoolState} (hs : PoolInv K N s)
    (hst : PoolStep s t) : PoolInv K N t := by
  cases hst with
  | recvJob j q l r c =>
    obtain ⟨hlen, hdc, rjobs, hq, hperm, hrd⟩ := hs
    simp only at hq hperm hrd hlen hdc ⊢
    rw [doneCount_idle] at hq hrd hdc
    cases rjobs with
    | nil =>
      exfalso
      rw [List.map_nil, List.nil_append] at hq
      cases hN2 : N - (doneCount l + doneCount r) with
      | zero => rw [hN2] at hq; exact List.cons_ne_nil _ _ hq
      | succ k =>
        rw [hN2, List.replicate_succ] at hq
        exact Msg.noConfusion (List.head_eq_of_cons_eq hq)
    | cons j' rj' =>
      rw [List.map_cons, List.cons_append] at hq
      have hj : Msg.job j = Msg.job j' := List.head_eq_of_cons_eq hq
      have hjj : j = j' := by injection hj
      have hq' : q = rj'.map Msg.job ++
          List.replicate (N - (doneCount l + doneCount r)) Msg.term :=
        List.tail_eq_of_cons_eq hq
      refine ⟨by simpa using hlen, ?_, rj', ?_, ?_, ?_⟩
      · rw [doneCount_running]; exact hdc
      · rw [doneCount_running]; exact hq'
      · rw [runningJobs_running]
        rw [runningJobs_idle] at hperm
        subst hjj
        exact (perm_shuffle1 c (runningJobs l) (runningJobs r) rj' j).trans hperm
      · intro hd1
        rw [doneCount_running] at hd1
        have := hrd hd1
        exact absurd this (List.cons_ne_nil j' rj')
  | recvTerm q l r c =>
    obtain ⟨hlen, hdc, rjobs, hq, hperm, hrd⟩ := hs
    simp only at hq hperm hrd hlen hdc ⊢
    rw [doneCount_idle] at hq hdc
    have hrjnil : rjobs = [] := by
      cases rjobs with
      | nil => rfl
      | cons j' rj' =>
        exfalso
        rw [List.map_cons, List.cons_append] at hq
        exact Msg.noConfusion (List.head_eq_of_cons_eq hq)
    subst hrjnil
    rw [List.map_nil, List.nil_append] at hq
    have hge : 1 ≤ N - (doneCount l + doneCount r) := by
      by_contra hlt
      have h0 : N - (doneCount l + doneCount r) = 0 := by omega
      rw [h0, List.replicate_zero] at hq
      exact List.cons_ne_nil _ _ hq
    have hq2 : Msg.term :: q =
        Msg.term :: List.replicate (N - (doneCount l + doneCount r) - 1) Msg.term := by
      rw [hq]
      cases hN2 : N - (doneCount l + doneCount r) with
      | zero => omega
      | succ k => rw [List.replicate_succ]; simp
    have hqq : q = List.replicate (N - (doneCount l + doneCount r) - 1) Msg.term :=
      List.tail_eq_of_cons_eq hq2
    refine ⟨by simpa using hlen, ?_, [], ?_, ?_, fun _ => rfl⟩
    · rw [doneCount_done]; omega
    · rw [doneCount_done, List.map_nil, List.nil_append]
      rw [hqq]
      show List.replicate (N - (doneCount l + doneCount r) - 1) Msg.term =
        List.replicate (N - (doneCount l + doneCount r + 1)) Msg.term
      rfl
    · rw [runningJobs_done]
      rw [runningJobs_idle] at hperm
      simpa using hperm
  | finishJob j q l r c =>
    obtain ⟨hlen, hdc, rjobs, hq, hperm, hrd⟩ := hs
    simp only at hq hperm hrd hlen hdc ⊢
    rw [doneCount_running] at hq hrd hdc
    refine ⟨by simpa using hlen, ?_, rjobs, ?_, ?_, ?_⟩
    · rw [doneCount_idle]; exact hdc
    · rw [doneCount_idle]; exact hq
    · rw [runningJobs_idle]
      rw [runningJobs_running] at hperm
      exact (perm_shuffle2 c (runningJobs l) (runningJobs r) rjobs j).trans hperm
    · intro hd1
      rw [doneCount_idle] at hd1
      exact hrd hd1

theorem poolInv_reach {K N : Nat} {s : PoolState}
    (h : PoolReach (initPool K N) s) : PoolInv K N s := by
  induction h with
  | refl => exact poolInv_init K N
  | tail _ hstep ih => exact poolInv_step ih hstep

/-! ### Claim C9: exactly K jobs complete before teardown returns -/

/-- C9, counterexample: the claim fails for a validly constructed pool with
zero workers (which `ThreadPool::new` produces on a one-core host, see C3):
teardown sends no terminates, joins nothing and returns immediately, and a
submitted job never runs.  The initial state with `K = 1`, `N = 0` is
reachable and already satisfies the teardown condition vacuously, with no job
completed. -/
theorem pool_zero_workers_counterexample :
    ¬ (∀ s, PoolReach (initPool 1 0) s → AllDone s →
        s.completed.Perm (List.range 1)) := by
  intro h
  have hvac : AllDone (initPool 1 0) := by
    intro w hw
    simp [initPool] at hw
  have h0 := h (initPool 1 0) Relation.ReflTransGen.refl hvac
  have hlen := h0.length_eq
  simp [initPool] at hlen

/-- C9 (amended): for every pool with at least one worker and every K jobs
submitted via `execute` before the pool handle is released, every execution
that reaches the teardown-returned state (all workers terminated and joined)
has completed exactly the K submitted jobs, each exactly once, and has
drained the queue — every worker consumed exactly one terminate signal. -/
theorem pool_drain (K N : Nat) (hN : 1 ≤ N) (s : PoolState)
    (hreach : PoolReach (initPool K N) s) (hdone : AllDone s) :
    s.completed.Perm (List.range K) ∧ s.queue = [] := by
  obtain ⟨hlen, hdc, rjobs, hq, hperm, hrd⟩ := poolInv_reach hreach
  have hdcN : doneCount s.workers = N := by
    unfold doneCount
    rw [List.countP_eq_length.mpr]
    · exact hlen
    · intro a ha
      rw [hdone a ha]
      simp
  have hrun : runningJobs s.workers = [] := by
    unfold runningJobs
    rw [List.filterMap_eq_nil_iff.mpr]
    intro a ha
    rw [hdone a ha]
  have hrj : rjobs = [] := hrd (by omega)
  subst hrj
  rw [hdcN, Nat.sub_self, List.replicate_zero, List.map_nil] at hq
  constructor
  · rw [hrun] at hperm
    simpa using hperm
  · simpa using hq

/-- C9 witness: the concrete execution with one worker and one job —
`recvJob`, `finishJob`, `recvTerm` — reaches the all-done state having
completed exactly job 0 with an empty queue. -/
theorem pool_drain_witness :
    (PoolState.mk [] [WStatus.done] [0]).completed.Perm (List.range 1) ∧
    (PoolState.mk [] [WStatus.done] [0]).queue = [] := by
  have h01 : PoolStep (initPool 1 1)
      (PoolState.mk [Msg.term] [WStatus.running 0] []) := by
    have hinit : initPool 1 1 =
        PoolState.mk [Msg.job 0, Msg.term] [WStatus.idle] [] := by decide
    rw [hinit]
    exact PoolStep.recvJob 0 [Msg.term] [] [] []
  have h12 : PoolStep (PoolState.mk [Msg.term] [WStatus.running 0] [])
      (PoolState.mk [Msg.term] [WStatus.idle] [0]) :=
    PoolStep.finishJob 0 [Msg.term] [] [] []
  have h23 : PoolStep (PoolState.mk [Msg.term] [WStatus.idle] [0])
      (PoolState.mk [] [WStatus.done] [0]) :=
    PoolStep.recvTerm [] [] [] [0]
  have hreach : PoolReach (initPool 1 1) (PoolState.mk [] [WStatus.done] [0]) :=
    Relation.ReflTransGen.head h01
      (Relation.ReflTransGen.head h12
        (Relation.ReflTransGen.head h23 Relation.ReflTransGen.refl))
  have hdone : AllDone (PoolState.mk [] [WStatus.done] [0]) := by
    intro w hw
    simpa using hw
  exact pool_drain 1 1 (by decide) _ hreach hdone

end PiHole
